import Mathlib

/-!
Verification of the ntdoc definition-reconstruction and fuzzy-ranking engine.

The record model and the operations `raw_definition`, `fuzzy_score`,
`fuzzy_score_ci` (from `src/db.rs`) and `direct_lookup`, `update_results`
(from `src/main.rs`) are embedded shallowly.  The skim fuzzy matcher is an
external dependency of the program; following the design notes it is
modelled as an abstract scoring function `Matcher : String → String →
Option Int` (higher is better, `none` means no match), and all theorems
quantify over it.
-/

namespace Ntdoc

/-- A struct or union field: name and type text (`StructField` in `db.rs`). -/
structure StructField where
  name : String
  type_ : String
deriving DecidableEq, Repr

/-- An enum member: name and optional explicit initializer (`EnumField` in `db.rs`).
The initializer is a Rust `u64`; only its decimal rendering matters here. -/
structure EnumField where
  name : String
  init : Option Nat
deriving DecidableEq, Repr

/-- The category tag (`Category` in `db.rs`). -/
inductive Category where
  | Nt
  | Win32
deriving DecidableEq, Repr

/-- The closed set of entry variants (`Entry` in `db.rs`). -/
inductive Entry where
  | Function (name return_type : String) (parameters : List String) (description : String)
  | Typedef (name : String) (typedef : List String)
  | Define (name value : String)
  | Struct (name : String) (fields : List StructField)
  | Union (name : String) (fields : List StructField)
  | Enum (name : String) (fields : List EnumField)
deriving DecidableEq, Repr

/-- An entry together with its category (`CategorizedEntry` in `db.rs`). -/
structure CategorizedEntry where
  category : Category
  entry : Entry
deriving DecidableEq, Repr

/-- `CategorizedEntry::name`: the identifying name, regardless of variant. -/
def CategorizedEntry.name (self : CategorizedEntry) : String :=
  match self.entry with
  | .Function n _ _ _ => n
  | .Typedef n _ => n
  | .Define n _ => n
  | .Struct n _ => n
  | .Union n _ => n
  | .Enum n _ => n

/-- Rust `str::ends_with` on strings: the second string is a suffix of the
first.  Stated on the underlying character lists so that it evaluates by
structural recursion. -/
def strEndsWith (t suf : String) : Bool :=
  suf.data.isSuffixOf t.data

/-- Rust `str::trim_start_matches('_')`: remove ALL leading underscores
(the pattern is stripped repeatedly). -/
def trimStartUnderscores (s : String) : String :=
  ⟨s.data.dropWhile (fun c => c = '_')⟩

/-- `CategorizedEntry::raw_definition`: synthesize a terse declaration.
The Struct arm scans `all` for the first Typedef whose token list has a
token equal to, or ending with, the struct's name, and uses that Typedef's
name as the alias; otherwise the struct's own name with leading
underscores stripped. -/
def CategorizedEntry.raw_definition (self : CategorizedEntry)
    (all : List CategorizedEntry) : String :=
  match self.entry with
  | .Function name return_type parameters _ =>
      let params := String.intercalate ", " parameters
      return_type ++ " " ++ name ++ "(" ++ params ++ ");"
  | .Define name value => "#define " ++ name ++ " " ++ value
  | .Typedef name typedef =>
      let tokens := String.intercalate " " typedef
      "typedef " ++ tokens ++ " " ++ name ++ ";"
  | .Struct name fields =>
      let aliasName : Option String := all.findSome? (fun e =>
        match e.entry with
        | .Typedef td_name tokens =>
            if tokens.any (fun t => t == name || strEndsWith t name) then
              some td_name
            else
              none
        | _ => none)
      let real := aliasName.getD (trimStartUnderscores name)
      let ptr := "P" ++ real
      let s := "typedef struct _" ++ name ++ " \x7b\n"
      let s := fields.foldl (fun s f => s ++ "    " ++ f.type_ ++ " " ++ f.name ++ ";\n") s
      s ++ "\x7d " ++ real ++ ", *" ++ ptr ++ ";"
  | .Union name fields =>
      let s := "union " ++ name ++ " \x7b\n"
      let s := fields.foldl (fun s f => s ++ "    " ++ f.type_ ++ " " ++ f.name ++ ";\n") s
      s ++ "\x7d;"
  | .Enum _ fields =>
      let s := "enum \x7b\n"
      let s := fields.foldl (fun s f =>
        match f.init with
        | some v => s ++ "    " ++ f.name ++ " = " ++ toString v ++ ",\n"
        | none => s ++ "    " ++ f.name ++ ",\n") s
      s ++ "\x7d;"

/-- The last line of a string: the characters after the final newline
(the whole string when it has no newline).  Used to state claims about
the "closing line" of a rendered definition. -/
def lastLine (s : String) : String :=
  ⟨(s.data.reverse.takeWhile (fun c => c ≠ '\n')).reverse⟩

/-- The external fuzzy matcher (skim's `SkimMatcherV2.fuzzy_match`),
abstracted per the design notes: `matcher text query` returns a score
(higher is better) or `none` for "no match at all". -/
abbrev Matcher := String → String → Option Int

/-- Rust `Option<i64>::max`: `None` is below every `Some`. -/
def optMax (a b : Option Int) : Option Int :=
  match a, b with
  | none, b => b
  | some x, none => some x
  | some x, some y => some (max x y)

/-- Rust `str::to_lowercase`, restricted to the simple per-character
mapping (sufficient for the catalog's ASCII identifiers). -/
def to_lowercase (s : String) : String :=
  ⟨s.data.map Char.toLower⟩

/-- `CategorizedEntry::fuzzy_score`: the name's score plus a fixed bonus
of 1000 when the name matches; otherwise the best score over the
kind-specific secondary text. -/
def CategorizedEntry.fuzzy_score (self : CategorizedEntry) (query : String)
    (matcher : Matcher) : Option Int :=
  match matcher self.name query with
  | some score => some (score + 1000)
  | none =>
      let best : Option Int := none
      match self.entry with
      | .Define _ value => optMax best (matcher value query)
      | .Function _ _ _ description => optMax best (matcher description query)
      | .Struct _ fields => fields.foldl (fun b f => optMax b (matcher f.name query)) best
      | .Union _ fields => fields.foldl (fun b f => optMax b (matcher f.name query)) best
      | .Enum _ fields => fields.foldl (fun b f => optMax b (matcher f.name query)) best
      | _ => best

/-- `CategorizedEntry::fuzzy_score_ci`: lowercased name against lowercased
query, with NO bonus on a name hit; secondary text (lowercased) is
consulted only when the lowercased name does not match. -/
def CategorizedEntry.fuzzy_score_ci (self : CategorizedEntry) (query : String)
    (matcher : Matcher) : Option Int :=
  let best := matcher (to_lowercase self.name) (to_lowercase query)
  match best with
  | some x => some x
  | none =>
      match self.entry with
      | .Define _ value =>
          optMax best (matcher (to_lowercase value) (to_lowercase query))
      | .Function _ _ _ description =>
          optMax best (matcher (to_lowercase description) (to_lowercase query))
      | .Struct _ fields =>
          fields.foldl (fun b f => optMax b (matcher (to_lowercase f.name) (to_lowercase query))) best
      | .Union _ fields =>
          fields.foldl (fun b f => optMax b (matcher (to_lowercase f.name) (to_lowercase query))) best
      | .Enum _ fields =>
          fields.foldl (fun b f => optMax b (matcher (to_lowercase f.name) (to_lowercase query))) best
      | _ => best

/-- The case-sensitive scoring pass shared by `direct_lookup` and
`update_results`: every entry whose name the matcher scores against the
query as typed, paired with its score, in catalog order. -/
def csPass (matcher : Matcher) (entries : List CategorizedEntry)
    (query : String) : List (CategorizedEntry × Int) :=
  entries.filterMap (fun e => (matcher e.name query).map (fun s => (e, s)))

/-- The case-insensitive scoring pass: lowercased names against the
lowercased query. -/
def ciPass (matcher : Matcher) (entries : List CategorizedEntry)
    (query : String) : List (CategorizedEntry × Int) :=
  entries.filterMap (fun e =>
    (matcher (to_lowercase e.name) (to_lowercase query)).map (fun s => (e, s)))

/-- Rust `Iterator::max_by_key` on the score component: the element with
the maximal score, the last such element on ties; `none` on an empty
list. -/
def maxByScore (l : List (CategorizedEntry × Int)) : Option (CategorizedEntry × Int) :=
  match l with
  | [] => none
  | p :: ps => some (ps.foldl (fun best q => if best.2 ≤ q.2 then q else best) p)

/-- `direct_lookup` (`main.rs`), restricted to its resolution result: the
maximum-scoring record of the case-sensitive pass, else of the
case-insensitive pass, else `none` (the CLI reports an error for `none`). -/
def direct_lookup (matcher : Matcher) (entries : List CategorizedEntry)
    (query : String) : Option CategorizedEntry :=
  match maxByScore (csPass matcher entries query) with
  | some (e, _) => some e
  | none =>
      match maxByScore (ciPass matcher entries query) with
      | some (e, _) => some e
      | none => none

/-- Strict lexicographic order on character lists, by structural
recursion so that it evaluates everywhere.  This is Rust's `Ord` on
`str` (byte-lexicographic order on UTF-8 agrees with codepoint order). -/
def charsLt : List Char → List Char → Bool
  | _, [] => false
  | [], _ :: _ => true
  | a :: as, b :: bs => decide (a < b) || (a == b && charsLt as bs)

/-- `a` sorts before or with `b` under Rust's ascending string order. -/
def nameLe (a b : String) : Bool := !(charsLt b.data a.data)

/-- Ascending-by-name order on scored entries, as Rust's stable
`sort_by_key(|(e, _)| e.name().to_string())` uses it. -/
def byNamePair (a b : CategorizedEntry × Int) : Prop :=
  nameLe a.1.name b.1.name = true

instance : DecidableRel byNamePair :=
  fun a b => inferInstanceAs (Decidable (nameLe a.1.name b.1.name = true))

/-- Descending-by-score order on scored entries, as Rust's stable
`sort_by(|a, b| b.1.cmp(&a.1))` uses it. -/
def byScoreDesc (a b : CategorizedEntry × Int) : Prop := b.2 ≤ a.2

instance : DecidableRel byScoreDesc := fun a b => Int.decLe b.2 a.2

/-- Ascending-by-name order on entries themselves (used to state the
empty-query claim). -/
def byNameEntry (a b : CategorizedEntry) : Prop :=
  nameLe a.name b.name = true

instance : DecidableRel byNameEntry :=
  fun a b => inferInstanceAs (Decidable (nameLe a.name b.name = true))

/-- The ranking core of `update_results` (`main.rs`): the ordered record
list placed into the results view.  Empty query: all records with score
0, stably sorted by name ascending.  Non-empty query: the case-sensitive
pass, or the case-insensitive pass when the former is empty.  The scored
set is then stably sorted by score descending and truncated to 50.
Rust's `sort_by` / `sort_by_key` are stable sorts, whose output is
uniquely determined by the comparison, so the stable `insertionSort`
models them exactly. -/
def update_results (matcher : Matcher) (entries : List CategorizedEntry)
    (query : String) : List CategorizedEntry :=
  let scored : List (CategorizedEntry × Int) :=
    if query = "" then
      List.insertionSort byNamePair (entries.map (fun e => (e, (0 : Int))))
    else
      let case_sensitive := csPass matcher entries query
      if case_sensitive = [] then ciPass matcher entries query else case_sensitive
  let sorted := List.insertionSort byScoreDesc scored
  (sorted.take 50).map Prod.fst

/-- The rendered line of one enum member, as the specification states
it: `    <name> = <value>,` with an explicit initializer, `    <name>,`
(no equals sign) without one. -/
def enumLine (f : EnumField) : String :=
  match f.init with
  | some v => "    " ++ f.name ++ " = " ++ toString v ++ ",\n"
  | none => "    " ++ f.name ++ ",\n"

/-- Concatenation of the rendered lines of a list, in order. -/
def strCat (g : α → String) : List α → String
  | [] => ""
  | x :: xs => g x ++ strCat g xs

/-- The enum body: one line per member, in original order. -/
def enumBody (fs : List EnumField) : String := strCat enumLine fs

/-- The rendered line of one struct/union field. -/
def structFieldLine (f : StructField) : String :=
  "    " ++ f.type_ ++ " " ++ f.name ++ ";\n"

/-- The struct/union body: one line per field, in original order. -/
def structBody (fs : List StructField) : String := strCat structFieldLine fs

theorem foldl_append_eq (g : α → String) (l : List α) (init : String) :
    l.foldl (fun s x => s ++ g x) init = init ++ strCat g l := by
  induction l generalizing init with
  | nil => simp [strCat]
  | cons x xs ih =>
      rw [List.foldl_cons, ih]
      simp [strCat, String.append_assoc]

theorem enum_foldl_eq_body (fs : List EnumField) (init : String) :
    fs.foldl (fun s f =>
      match f.init with
      | some v => s ++ "    " ++ f.name ++ " = " ++ toString v ++ ",\n"
      | none => s ++ "    " ++ f.name ++ ",\n") init
      = init ++ enumBody fs := by
  have hfun : (fun (s : String) (f : EnumField) =>
      match f.init with
      | some v => s ++ "    " ++ f.name ++ " = " ++ toString v ++ ",\n"
      | none => s ++ "    " ++ f.name ++ ",\n")
      = (fun s f => s ++ enumLine f) := by
    funext s f
    cases h : f.init <;> simp [enumLine, h, String.append_assoc]
  rw [hfun]
  exact foldl_append_eq enumLine fs init

theorem struct_foldl_eq_body (fs : List StructField) (init : String) :
    fs.foldl (fun s f => s ++ "    " ++ f.type_ ++ " " ++ f.name ++ ";\n") init
      = init ++ structBody fs := by
  have hfun : (fun (s : String) (f : StructField) =>
      s ++ "    " ++ f.type_ ++ " " ++ f.name ++ ";\n")
      = (fun s f => s ++ structFieldLine f) := by
    funext s f
    simp [structFieldLine, String.append_assoc]
  rw [hfun]
  exact foldl_append_eq structFieldLine fs init


/-- C8: for every Enum record, `raw_definition` produces `enum {`
followed by one line per member in original order — `    <name> = <value>,`
with an explicit initializer, `    <name>,` (no equals sign) without —
closed by `};`; in particular members `[{A, some 0}, {B, none}]` render
exactly `enum {\n    A = 0,\n    B,\n};`. -/
theorem enum_raw_definition (cat : Category) (n : String) (fs : List EnumField)
    (all : List CategorizedEntry) :
    CategorizedEntry.raw_definition ⟨cat, .Enum n fs⟩ all
      = "enum \x7b\n" ++ enumBody fs ++ "\x7d;" ∧
    CategorizedEntry.raw_definition ⟨cat, .Enum n [⟨"A", some 0⟩, ⟨"B", none⟩]⟩ all
      = "enum \x7b\n    A = 0,\n    B,\n\x7d;" := by
  constructor
  · show (fs.foldl _ "enum \x7b\n") ++ "\x7d;" = _
    rw [enum_foldl_eq_body, String.append_assoc]
  · show (([⟨"A", some 0⟩, ⟨"B", none⟩] : List EnumField).foldl _ "enum \x7b\n") ++ "\x7d;" = _
    rw [enum_foldl_eq_body]
    decide

/-- C1: the claim asserts the closing line `} FOO, *PFOO;` for the
Typedef `{name := "PFOO", typedef := ["_FOO", "*"]}` / Struct
`{name := "_FOO"}` scenario; the code uses the typedef's name `PFOO`
itself as the alias, so the closing line is `} PFOO, *PPFOO;`. -/
theorem struct_alias_counterexample :
    lastLine (CategorizedEntry.raw_definition ⟨.Nt, .Struct "_FOO" []⟩
        [⟨.Nt, .Typedef ("PFOO") ["_FOO", "*"]⟩, ⟨.Nt, .Struct "_FOO" []⟩])
      = "\x7d PFOO, *PPFOO;" ∧
    ¬ lastLine (CategorizedEntry.raw_definition ⟨.Nt, .Struct "_FOO" []⟩
        [⟨.Nt, .Typedef ("PFOO") ["_FOO", "*"]⟩, ⟨.Nt, .Struct "_FOO" []⟩])
      = "\x7d FOO, *PFOO;" := by
  constructor
  · decide
  · decide

/-- C1 (amended): in that scenario `raw_definition` uses the Typedef's
name `PFOO` as the alias, so the output is
`typedef struct __FOO {\n} PFOO, *PPFOO;`, whose closing line is
`} PFOO, *PPFOO;`. -/
theorem struct_alias_resolution :
    CategorizedEntry.raw_definition ⟨.Nt, .Struct "_FOO" []⟩
        [⟨.Nt, .Typedef ("PFOO") ["_FOO", "*"]⟩, ⟨.Nt, .Struct "_FOO" []⟩]
      = "typedef struct __FOO \x7b\n\x7d PFOO, *PPFOO;" ∧
    lastLine (CategorizedEntry.raw_definition ⟨.Nt, .Struct "_FOO" []⟩
        [⟨.Nt, .Typedef ("PFOO") ["_FOO", "*"]⟩, ⟨.Nt, .Struct "_FOO" []⟩])
      = "\x7d PFOO, *PPFOO;" := by
  constructor
  · decide
  · decide

/-- C2: the claim asserts at most ONE leading underscore is removed, so
a struct named `__FOO` would get the alias `_FOO`; the code strips ALL
leading underscores (`trim_start_matches` removes the pattern
repeatedly), producing the alias `FOO`. -/
theorem strip_underscore_counterexample :
    CategorizedEntry.raw_definition ⟨.Nt, .Struct "__FOO" []⟩ [⟨.Nt, .Struct "__FOO" []⟩]
      = "typedef struct ___FOO \x7b\n\x7d FOO, *PFOO;" ∧
    ¬ lastLine (CategorizedEntry.raw_definition ⟨.Nt, .Struct "__FOO" []⟩
        [⟨.Nt, .Struct "__FOO" []⟩])
      = "\x7d _FOO, *P_FOO;" := by
  constructor
  · decide
  · decide

/-- C2 (amended): for every Struct record such that no Typedef in the
catalog has a token equal to, or ending with, the struct's name,
`raw_definition` uses as alias the struct's own name with ALL leading
underscores removed (so `__FOO` yields `FOO`). -/
theorem struct_no_typedef_alias (cat : Category) (n : String)
    (fs : List StructField) (all : List CategorizedEntry)
    (hnone : ∀ e ∈ all, ∀ td_name tokens, e.entry = .Typedef td_name tokens →
      ∀ t ∈ tokens, (t == n || strEndsWith t n) = false) :
    CategorizedEntry.raw_definition ⟨cat, .Struct n fs⟩ all
      = "typedef struct _" ++ n ++ " \x7b\n" ++ structBody fs
        ++ "\x7d " ++ trimStartUnderscores n ++ ", *"
        ++ ("P" ++ trimStartUnderscores n) ++ ";" := by
  have hfind : all.findSome? (fun e =>
      match e.entry with
      | .Typedef td_name tokens =>
          if tokens.any (fun t => t == n || strEndsWith t n) then some td_name
          else none
      | _ => none) = none := by
    rw [List.findSome?_eq_none_iff]
    intro e he
    rcases hent : e.entry with _ | ⟨td_name, tokens⟩ | _ | _ | _ | _ <;> simp only []
    case Typedef =>
      have hany : tokens.any (fun t => t == n || strEndsWith t n) = false := by
        rw [List.any_eq_false]
        intro t ht
        simp [hnone e he td_name tokens hent t ht]
      rw [hany]
      simp
  show (fs.foldl _ _) ++ "\x7d " ++ _ ++ ", *" ++ _ ++ ";" = _
  rw [hfind]
  show (fs.foldl _ ("typedef struct _" ++ n ++ " \x7b\n"))
      ++ "\x7d " ++ trimStartUnderscores n ++ ", *"
      ++ ("P" ++ trimStartUnderscores n) ++ ";" = _
  rw [struct_foldl_eq_body]

/-- Witness for C2 (amended): a struct named `__FOO` in a catalog with
no typedefs at all yields the alias `FOO`. -/
theorem struct_no_typedef_alias_witness :
    CategorizedEntry.raw_definition ⟨.Nt, .Struct "__FOO" []⟩ [⟨.Nt, .Struct "__FOO" []⟩]
      = "typedef struct ___FOO \x7b\n\x7d FOO, *PFOO;" :=
  (struct_no_typedef_alias Category.Nt "__FOO" [] [⟨.Nt, .Struct "__FOO" []⟩]
    (by intro e he td_name tokens hent t ht
        simp only [List.mem_singleton] at he
        subst he
        simp at hent)).trans (by decide)

/-- C7: for every query and every catalog, the ranked list holds at most
50 records, and on the empty catalog it is empty, without error. -/
theorem rank_bounded (matcher : Matcher) (entries : List CategorizedEntry)
    (query : String) :
    (update_results matcher entries query).length ≤ 50 ∧
    update_results matcher [] query = [] := by
  constructor
  · simp only [update_results, List.length_map, List.length_take]
    exact min_le_left _ _
  · by_cases hq : query = "" <;>
      simp [update_results, hq, csPass, ciPass, List.insertionSort]

/-- C6: for every catalog, the ranked list for the empty query is the
catalog sorted by name in ascending lexical order (truncated to the
first 50), with length equal to the catalog size capped at 50. -/
theorem rank_empty_query (matcher : Matcher) (entries : List CategorizedEntry) :
    update_results matcher entries ""
      = (List.insertionSort byNameEntry entries).take 50 ∧
    (update_results matcher entries "").length = min entries.length 50 := by
  have h1 : update_results matcher entries ""
      = (List.insertionSort byNameEntry entries).take 50 := by
    show ((List.insertionSort byScoreDesc (List.insertionSort byNamePair
        (entries.map (fun e => (e, (0 : Int)))))).take 50).map Prod.fst = _
    have hall0 : ∀ p ∈ List.insertionSort byNamePair
        (entries.map (fun e => (e, (0 : Int)))), p.2 = 0 := by
      intro p hp
      rw [List.mem_insertionSort] at hp
      obtain ⟨a, -, rfl⟩ := List.mem_map.mp hp
      rfl
    have hsorted : List.Sorted byScoreDesc (List.insertionSort byNamePair
        (entries.map (fun e => (e, (0 : Int))))) := by
      apply List.pairwise_of_forall_mem_list
      intro a ha b hb
      show b.2 ≤ a.2
      rw [hall0 a ha, hall0 b hb]
    rw [List.Sorted.insertionSort_eq hsorted]
    have hmap : (List.insertionSort byNamePair
          (entries.map (fun e => (e, (0 : Int))))).map Prod.fst
        = List.insertionSort byNameEntry
            ((entries.map (fun e => (e, (0 : Int)))).map Prod.fst) :=
      List.map_insertionSort byNamePair byNameEntry Prod.fst _ (fun a _ b _ => Iff.rfl)
    rw [List.map_take, hmap, List.map_map]
    have hcomp : (Prod.fst ∘ fun e : CategorizedEntry => (e, (0 : Int))) = id := rfl
    rw [hcomp, List.map_id]
  refine ⟨h1, ?_⟩
  rw [h1]
  simp only [List.length_take, List.length_insertionSort]
  omega

/-- C4: for every non-empty query the ranked list is built from the
case-sensitive match set whenever it is non-empty; the case-insensitive
set is used only when the case-sensitive set is completely empty — an
all-or-nothing fallback at the set level. -/
theorem rank_set_level_fallback (matcher : Matcher)
    (entries : List CategorizedEntry) (query : String) (hq : query ≠ "") :
    (csPass matcher entries query ≠ [] →
      update_results matcher entries query
        = ((List.insertionSort byScoreDesc
            (csPass matcher entries query)).take 50).map Prod.fst) ∧
    (csPass matcher entries query = [] →
      update_results matcher entries query
        = ((List.insertionSort byScoreDesc
            (ciPass matcher entries query)).take 50).map Prod.fst) := by
  constructor <;> intro h <;> simp [update_results, hq, h]

/-- Witness for C4: a query matching one record case-sensitively uses
the case-sensitive set. -/
theorem rank_set_level_fallback_witness :
    update_results (fun t q => if t = q then some 5 else none)
      [⟨.Nt, .Define "A" "1"⟩] "A" = [⟨.Nt, .Define "A" "1"⟩] :=
  ((rank_set_level_fallback (fun t q => if t = q then some 5 else none)
      [⟨.Nt, .Define "A" "1"⟩] "A" (by decide)).1 (by decide)).trans (by decide)

theorem foldl_max_mem (ps : List (CategorizedEntry × Int)) (p : CategorizedEntry × Int) :
    ps.foldl (fun best q => if best.2 ≤ q.2 then q else best) p ∈ p :: ps := by
  induction ps generalizing p with
  | nil => simp
  | cons q qs ih =>
      rw [List.foldl_cons]
      rcases List.mem_cons.mp (ih (if p.2 ≤ q.2 then q else p)) with h1 | h1
      · rw [h1]
        by_cases hpq : p.2 ≤ q.2
        · rw [if_pos hpq]
          exact List.mem_cons_of_mem _ (List.mem_cons_self _ _)
        · rw [if_neg hpq]
          exact List.mem_cons_self _ _
      · exact List.mem_cons_of_mem _ (List.mem_cons_of_mem _ h1)

theorem foldl_max_ge (ps : List (CategorizedEntry × Int)) (p : CategorizedEntry × Int) :
    ∀ x ∈ p :: ps, x.2 ≤ (ps.foldl (fun best q => if best.2 ≤ q.2 then q else best) p).2 := by
  induction ps generalizing p with
  | nil =>
      intro x hx
      rcases List.mem_cons.mp hx with rfl | h1
      · exact le_refl _
      · simp at h1
  | cons q qs ih =>
      intro x hx
      rw [List.foldl_cons]
      have hstep : p.2 ≤ (if p.2 ≤ q.2 then q else p).2 := by
        by_cases hpq : p.2 ≤ q.2 <;> simp [hpq]
      have hstepq : q.2 ≤ (if p.2 ≤ q.2 then q else p).2 := by
        by_cases hpq : p.2 ≤ q.2 <;> simp [hpq]
        omega
      have hhead := ih (if p.2 ≤ q.2 then q else p) _ (List.mem_cons_self _ _)
      rcases List.mem_cons.mp hx with rfl | h1
      · exact le_trans hstep hhead
      · rcases List.mem_cons.mp h1 with rfl | h2
        · exact le_trans hstepq hhead
        · exact ih (if p.2 ≤ q.2 then q else p) x (List.mem_cons_of_mem _ h2)

theorem maxByScore_eq_some (l : List (CategorizedEntry × Int))
    (p : CategorizedEntry × Int) (h : maxByScore l = some p) :
    p ∈ l ∧ ∀ q ∈ l, q.2 ≤ p.2 := by
  cases l with
  | nil => simp [maxByScore] at h
  | cons x xs =>
      have hp : xs.foldl (fun best q => if best.2 ≤ q.2 then q else best) x = p := by
        simpa [maxByScore] using h
      subst hp
      exact ⟨foldl_max_mem xs x, foldl_max_ge xs x⟩

theorem maxByScore_eq_none (l : List (CategorizedEntry × Int)) :
    maxByScore l = none ↔ l = [] := by
  cases l <;> simp [maxByScore]

/-- C3: a record that is the unique maximum-scoring case-sensitive match
for its own name is the resolution result of a direct lookup of that
name. -/
theorem direct_lookup_resolves_self (matcher : Matcher)
    (entries : List CategorizedEntry) (r : CategorizedEntry) (s : Int)
    (hmem : r ∈ entries) (hne : r.name ≠ "")
    (hself : matcher r.name r.name = some s)
    (hmax : ∀ e ∈ entries, e ≠ r → ∀ t, matcher e.name r.name = some t → t < s) :
    direct_lookup matcher entries r.name = some r := by
  have hrs : (r, s) ∈ csPass matcher entries r.name := by
    rw [csPass, List.mem_filterMap]
    exact ⟨r, hmem, by rw [hself]; rfl⟩
  obtain ⟨p, hp⟩ : ∃ p, maxByScore (csPass matcher entries r.name) = some p := by
    cases hcs : maxByScore (csPass matcher entries r.name) with
    | none =>
        rw [maxByScore_eq_none] at hcs
        rw [hcs] at hrs
        simp at hrs
    | some p => exact ⟨p, rfl⟩
  obtain ⟨hpmem, hub⟩ := maxByScore_eq_some _ _ hp
  rw [csPass, List.mem_filterMap] at hpmem
  obtain ⟨e, he, hmap⟩ := hpmem
  rw [Option.map_eq_some'] at hmap
  obtain ⟨t, hm, hft⟩ := hmap
  subst hft
  have hsp : s ≤ t := hub (r, s) hrs
  have he_eq : e = r := by
    by_contra hner
    have := hmax e he hner t hm
    omega
  subst he_eq
  rw [direct_lookup, hp]

/-- Witness for C3: in a two-record catalog where only the first
record's name matches its own name exactly, lookup resolves to it. -/
theorem direct_lookup_resolves_self_witness :
    direct_lookup (fun t q => if t = q then some 5 else none)
      [⟨.Nt, .Define "MAX_PATH" "260"⟩, ⟨.Nt, .Define "OTHER" "1"⟩]
      (CategorizedEntry.name ⟨.Nt, .Define "MAX_PATH" "260"⟩)
      = some ⟨.Nt, .Define "MAX_PATH" "260"⟩ :=
  direct_lookup_resolves_self (fun t q => if t = q then some 5 else none)
    [⟨.Nt, .Define "MAX_PATH" "260"⟩, ⟨.Nt, .Define "OTHER" "1"⟩]
    ⟨.Nt, .Define "MAX_PATH" "260"⟩ 5
    (by decide) (by decide) (by decide)
    (by
      intro e he hner t ht
      simp only [List.mem_cons, List.mem_singleton] at he
      rcases he with rfl | rfl | h
      · exact absurd rfl hner
      · simp [CategorizedEntry.name] at ht
      · simp at h)

/-- C9: direct lookup surfaces "no match in either pass" as `none`, and
a record matching in either pass yields a `some` result. -/
theorem direct_lookup_no_match (matcher : Matcher)
    (entries : List CategorizedEntry) (query : String) :
    ((∀ e ∈ entries, matcher e.name query = none) ∧
     (∀ e ∈ entries, matcher (to_lowercase e.name) (to_lowercase query) = none) →
      direct_lookup matcher entries query = none) ∧
    ((∃ e ∈ entries, (matcher e.name query).isSome ∨
        (matcher (to_lowercase e.name) (to_lowercase query)).isSome) →
      (direct_lookup matcher entries query).isSome) := by
  constructor
  · rintro ⟨hcs, hci⟩
    have h1 : csPass matcher entries query = [] := by
      rw [csPass, List.filterMap_eq_nil_iff]
      intro e he
      rw [hcs e he]
      rfl
    have h2 : ciPass matcher entries query = [] := by
      rw [ciPass, List.filterMap_eq_nil_iff]
      intro e he
      rw [hci e he]
      rfl
    rw [direct_lookup, h1, h2]
    rfl
  · rintro ⟨e, he, hor⟩
    rw [direct_lookup]
    cases hcs : maxByScore (csPass matcher entries query) with
    | some p => cases p; rfl
    | none =>
        rw [maxByScore_eq_none] at hcs
        cases hci : maxByScore (ciPass matcher entries query) with
        | some p => cases p; rfl
        | none =>
            exfalso
            rw [maxByScore_eq_none] at hci
            rw [csPass, List.filterMap_eq_nil_iff] at hcs
            rw [ciPass, List.filterMap_eq_nil_iff] at hci
            have hc1 := hcs e he
            have hc2 := hci e he
            rcases hor with hs | hs <;> rw [Option.isSome_iff_exists] at hs <;>
              obtain ⟨v, hv⟩ := hs
            · rw [hv] at hc1
              simp at hc1
            · rw [hv] at hc2
              simp at hc2

/-- Witness for C9: a matcher that matches nothing yields `none` on a
one-record catalog. -/
theorem direct_lookup_no_match_witness :
    direct_lookup (fun _ _ => none) [⟨.Nt, .Define "A" "1"⟩] "zzz" = none :=
  (direct_lookup_no_match (fun _ _ => none) [⟨.Nt, .Define "A" "1"⟩] "zzz").1
    ⟨fun _ _ => rfl, fun _ _ => rfl⟩

@[simp] theorem optMax_none_left (b : Option Int) : optMax none b = b := by
  cases b <;> rfl

theorem foldl_optMax_some_le {α : Type} (g : α → Option Int) (l : List α) :
    ∀ (v : Int) (b : Option Int), b = some v →
      ∃ m, l.foldl (fun acc x => optMax acc (g x)) b = some m ∧ v ≤ m := by
  induction l with
  | nil =>
      intro v b hb
      exact ⟨v, by rw [List.foldl_nil, hb], le_refl v⟩
  | cons x xs ih =>
      intro v b hb
      rw [List.foldl_cons, hb]
      cases hg : g x with
      | none => exact ih v (optMax (some v) none) rfl
      | some y =>
          obtain ⟨m, hm, hle⟩ := ih (max v y) (optMax (some v) (some y)) rfl
          exact ⟨m, hm, le_trans (le_max_left v y) hle⟩

theorem foldl_optMax_ub {α : Type} (g : α → Option Int) (l : List α) :
    ∀ (b : Option Int), ∀ a ∈ l, ∀ t, g a = some t →
      ∃ m, l.foldl (fun acc x => optMax acc (g x)) b = some m ∧ t ≤ m := by
  induction l with
  | nil =>
      intro b a ha
      simp at ha
  | cons x xs ih =>
      intro b a ha t ht
      rw [List.foldl_cons]
      rcases List.mem_cons.mp ha with rfl | ha'
      · cases hb : b with
        | none =>
            rw [ht]
            exact foldl_optMax_some_le g xs t (optMax none (some t)) rfl
        | some u =>
            rw [ht]
            obtain ⟨m, hm, hle⟩ :=
              foldl_optMax_some_le g xs (max u t) (optMax (some u) (some t)) rfl
            exact ⟨m, hm, le_trans (le_max_right u t) hle⟩
      · exact ih (optMax b (g x)) a ha' t ht

theorem foldl_optMax_attained {α : Type} (g : α → Option Int) (l : List α) :
    ∀ (b : Option Int) (m : Int),
      l.foldl (fun acc x => optMax acc (g x)) b = some m →
      b = some m ∨ ∃ a ∈ l, g a = some m := by
  induction l with
  | nil =>
      intro b m h
      exact Or.inl h
  | cons x xs ih =>
      intro b m h
      rw [List.foldl_cons] at h
      rcases ih (optMax b (g x)) m h with h1 | h1
      · cases hb : b with
        | none =>
            cases hg : g x with
            | none =>
                rw [hb, hg] at h1
                simp [optMax] at h1
            | some y =>
                rw [hb, hg] at h1
                simp [optMax] at h1
                exact Or.inr ⟨x, List.mem_cons_self _ _, by rw [hg, h1]⟩
        | some u =>
            cases hg : g x with
            | none =>
                rw [hb, hg] at h1
                exact Or.inl h1
            | some y =>
                rw [hb, hg] at h1
                simp [optMax] at h1
                rcases max_choice u y with hc | hc
                · exact Or.inl (by rw [← h1, hc])
                · exact Or.inr ⟨x, List.mem_cons_self _ _, by rw [hg, ← h1, hc]⟩
      · obtain ⟨a, ha, hga⟩ := h1
        exact Or.inr ⟨a, List.mem_cons_of_mem _ ha, hga⟩

/-- C5: per-entry scoring: a name hit returns the name's score plus the
fixed bonus 1000; with no name hit, the result is the best score over
the kind-specific secondary text (Define's value, Function's
description, best over all Struct/Union/Enum field or member names),
and a Typedef with no name hit scores nothing. -/
theorem fuzzy_score_spec (matcher : Matcher) (e : CategorizedEntry)
    (query : String) :
    (∀ s, matcher e.name query = some s →
      e.fuzzy_score query matcher = some (s + 1000)) ∧
    (matcher e.name query = none →
      (∀ n v, e.entry = .Define n v →
        e.fuzzy_score query matcher = matcher v query) ∧
      (∀ n rt ps d, e.entry = .Function n rt ps d →
        e.fuzzy_score query matcher = matcher d query) ∧
      (∀ n td, e.entry = .Typedef n td →
        e.fuzzy_score query matcher = none) ∧
      (∀ n fs, e.entry = .Struct n fs ∨ e.entry = .Union n fs →
        (∀ f ∈ fs, ∀ t, matcher f.name query = some t →
          ∃ m, e.fuzzy_score query matcher = some m ∧ t ≤ m) ∧
        (∀ m, e.fuzzy_score query matcher = some m →
          ∃ f ∈ fs, matcher f.name query = some m)) ∧
      (∀ n fs, e.entry = .Enum n fs →
        (∀ f ∈ fs, ∀ t, matcher f.name query = some t →
          ∃ m, e.fuzzy_score query matcher = some m ∧ t ≤ m) ∧
        (∀ m, e.fuzzy_score query matcher = some m →
          ∃ f ∈ fs, matcher f.name query = some m))) := by
  constructor
  · intro s hs
    unfold CategorizedEntry.fuzzy_score
    rw [hs]
  · intro hnone
    refine ⟨?_, ?_, ?_, ?_, ?_⟩
    · intro n v hent
      unfold CategorizedEntry.fuzzy_score
      rw [hnone, hent]
      exact optMax_none_left _
    · intro n rt ps d hent
      unfold CategorizedEntry.fuzzy_score
      rw [hnone, hent]
      exact optMax_none_left _
    · intro n td hent
      unfold CategorizedEntry.fuzzy_score
      rw [hnone, hent]
    · intro n fs hent
      have hrw : e.fuzzy_score query matcher
          = fs.foldl (fun b f => optMax b (matcher f.name query)) none := by
        unfold CategorizedEntry.fuzzy_score
        rw [hnone]
        rcases hent with hent | hent <;> rw [hent]
      constructor
      · intro f hf t ht
        rw [hrw]
        exact foldl_optMax_ub (fun f => matcher f.name query) fs none f hf t ht
      · intro m hm
        rw [hrw] at hm
        rcases foldl_optMax_attained (fun f => matcher f.name query) fs none m hm with h | h
        · simp at h
        · exact h
    · intro n fs hent
      have hrw : e.fuzzy_score query matcher
          = fs.foldl (fun b f => optMax b (matcher f.name query)) none := by
        unfold CategorizedEntry.fuzzy_score
        rw [hnone, hent]
      constructor
      · intro f hf t ht
        rw [hrw]
        exact foldl_optMax_ub (fun f => matcher f.name query) fs none f hf t ht
      · intro m hm
        rw [hrw] at hm
        rcases foldl_optMax_attained (fun f => matcher f.name query) fs none m hm with h | h
        · simp at h
        · exact h

/-- Witness for C5: a name hit gets the bonus, and a Define whose name
misses scores through its value text. -/
theorem fuzzy_score_spec_witness :
    CategorizedEntry.fuzzy_score ⟨.Nt, .Define "A" "1"⟩ "A"
      (fun t q => if t = q then some 7 else none) = some 1007 :=
  (fuzzy_score_spec (fun t q => if t = q then some 7 else none)
      ⟨.Nt, .Define "A" "1"⟩ "A").1 7 (by decide)

/-- C10: the case-insensitive per-entry scorer adds no bonus: a
lowercased-name hit returns exactly the matcher's score, and the
kind-specific secondary text (lowercased) is consulted only when the
lowercased name does not match. -/
theorem fuzzy_score_ci_spec (matcher : Matcher) (e : CategorizedEntry)
    (query : String) :
    (∀ s, matcher (to_lowercase e.name) (to_lowercase query) = some s →
      e.fuzzy_score_ci query matcher = some s) ∧
    (matcher (to_lowercase e.name) (to_lowercase query) = none →
      (∀ n v, e.entry = .Define n v →
        e.fuzzy_score_ci query matcher
          = matcher (to_lowercase v) (to_lowercase query)) ∧
      (∀ n rt ps d, e.entry = .Function n rt ps d →
        e.fuzzy_score_ci query matcher
          = matcher (to_lowercase d) (to_lowercase query)) ∧
      (∀ n td, e.entry = .Typedef n td →
        e.fuzzy_score_ci query matcher = none) ∧
      (∀ n fs, e.entry = .Struct n fs ∨ e.entry = .Union n fs →
        (∀ f ∈ fs, ∀ t,
          matcher (to_lowercase f.name) (to_lowercase query) = some t →
          ∃ m, e.fuzzy_score_ci query matcher = some m ∧ t ≤ m) ∧
        (∀ m, e.fuzzy_score_ci query matcher = some m →
          ∃ f ∈ fs, matcher (to_lowercase f.name) (to_lowercase query) = some m)) ∧
      (∀ n fs, e.entry = .Enum n fs →
        (∀ f ∈ fs, ∀ t,
          matcher (to_lowercase f.name) (to_lowercase query) = some t →
          ∃ m, e.fuzzy_score_ci query matcher = some m ∧ t ≤ m) ∧
        (∀ m, e.fuzzy_score_ci query matcher = some m →
          ∃ f ∈ fs, matcher (to_lowercase f.name) (to_lowercase query) = some m))) := by
  constructor
  · intro s hs
    unfold CategorizedEntry.fuzzy_score_ci
    rw [hs]
  · intro hnone
    refine ⟨?_, ?_, ?_, ?_, ?_⟩
    · intro n v hent
      unfold CategorizedEntry.fuzzy_score_ci
      rw [hnone, hent]
      exact optMax_none_left _
    · intro n rt ps d hent
      unfold CategorizedEntry.fuzzy_score_ci
      rw [hnone, hent]
      exact optMax_none_left _
    · intro n td hent
      unfold CategorizedEntry.fuzzy_score_ci
      rw [hnone, hent]
    · intro n fs hent
      have hrw : e.fuzzy_score_ci query matcher
          = fs.foldl (fun b f =>
              optMax b (matcher (to_lowercase f.name) (to_lowercase query))) none := by
        unfold CategorizedEntry.fuzzy_score_ci
        rw [hnone]
        rcases hent with hent | hent <;> rw [hent]
      constructor
      · intro f hf t ht
        rw [hrw]
        exact foldl_optMax_ub
          (fun f => matcher (to_lowercase f.name) (to_lowercase query)) fs none f hf t ht
      · intro m hm
        rw [hrw] at hm
        rcases foldl_optMax_attained
            (fun f => matcher (to_lowercase f.name) (to_lowercase query)) fs none m hm with h | h
        · simp at h
        · exact h
    · intro n fs hent
      have hrw : e.fuzzy_score_ci query matcher
          = fs.foldl (fun b f =>
              optMax b (matcher (to_lowercase f.name) (to_lowercase query))) none := by
        unfold CategorizedEntry.fuzzy_score_ci
        rw [hnone, hent]
      constructor
      · intro f hf t ht
        rw [hrw]
        exact foldl_optMax_ub
          (fun f => matcher (to_lowercase f.name) (to_lowercase query)) fs none f hf t ht
      · intro m hm
        rw [hrw] at hm
        rcases foldl_optMax_attained
            (fun f => matcher (to_lowercase f.name) (to_lowercase query)) fs none m hm with h | h
        · simp at h
        · exact h

/-- Witness for C10: a lowercased-name hit returns the raw score 7,
with no bonus added. -/
theorem fuzzy_score_ci_spec_witness :
    CategorizedEntry.fuzzy_score_ci ⟨.Nt, .Define "A" "1"⟩ "a"
      (fun t q => if t = q then some 7 else none) = some 7 :=
  (fuzzy_score_ci_spec (fun t q => if t = q then some 7 else none)
      ⟨.Nt, .Define "A" "1"⟩ "a").1 7 (by decide)

end Ntdoc
